import Mathlib

/-
Verification of the trading-calendar core of zipline
(src/zipline/finance/trading.py): TradingEnvironment (calendar index,
day lookup, next-trading-day stepping, scoped global context) and
SimulationParameters (period boundary snapping and trading-day slicing).

Shallow embedding conventions:
* A pandas Timestamp is a `Nat`, counted in minutes since the epoch.
* `normalize_date` strips the time of day, so normalized dates are the
  multiples of `minutes_per_day`; `trading_days` holds normalized dates.
* `bisect.bisect_left` and `DatetimeIndex.searchsorted` (side left) are
  both modelled by `bisect_left`, the leftmost insertion point into a
  sorted list.
* The unbounded `while` loops of the source take an explicit fuel
  argument; `next_trading_day`'s loop is bounded by its own guard
  `dt <= last_trading_day`, so its fuel is computed from that bound.
* Exceptions are `Except`; `NoFurtherDataError`'s message carries
  `last_trading_day`, modelled as the error payload.
* The module-level mutable `environment` variable is explicit state
  (`GlobalContext` / `ScopedState`) threaded through the operations
  that touch it.
-/

namespace ZiplineTrading

def minutes_per_day : Nat := 1440

def one_day : Nat := minutes_per_day

/-- `pd.tseries.tools.normalize_date`: strip the time of day from a
timestamp, leaving midnight of the same calendar day. -/
def normalize_date (t : Nat) : Nat := minutes_per_day * (t / minutes_per_day)

/-- `bisect.bisect_left` / `searchsorted` with the left convention on a
sorted sequence: the leftmost position at which `x` could be inserted
keeping the sequence sorted. -/
def bisect_left : List Nat → Nat → Nat
  | [], _ => 0
  | a :: l, x => if a < x then bisect_left l x + 1 else 0

/-- The calendar data held by a `TradingEnvironment`: the trading-day
list (normalized dates) and, per trading day, the market open and close
as minute offsets into the day (the `open_and_closes` table of the
source, keyed by day). -/
structure TradingEnvironment where
  trading_days : List Nat
  open_minute : Nat → Nat
  close_minute : Nat → Nat

def TradingEnvironment.first_trading_day (env : TradingEnvironment) : Nat :=
  env.trading_days.headD 0

def TradingEnvironment.last_trading_day (env : TradingEnvironment) : Nat :=
  env.trading_days.getLastD 0

def TradingEnvironment.is_trading_day (env : TradingEnvironment) (test_date : Nat) : Bool :=
  decide (normalize_date test_date ∈ env.trading_days)

/-- `open_and_closes.ix[day.date()]`: look up the open/close pair of the
calendar day of `day`.  (The source raises on a day missing from the
table; every call site verified here passes a trading day.) -/
def TradingEnvironment.get_open_and_close (env : TradingEnvironment) (day : Nat) : Nat × Nat :=
  (normalize_date day + env.open_minute (normalize_date day),
   normalize_date day + env.close_minute (normalize_date day))

/-- The body of `next_trading_day`'s `while dt <= last` loop: step one
day forward, return the stepped-to day as soon as it is a trading day,
give up once the guard fails.  Fuel only bounds recursion depth; the
wrapper passes enough for the guard to be the real exit. -/
def next_trading_day_loop (days : List Nat) (last : Nat) (dt : Nat) : Nat → Option Nat
  | 0 => none
  | fuel + 1 =>
    if dt ≤ last then
      if dt + one_day ∈ days then some (dt + one_day)
      else next_trading_day_loop days last (dt + one_day) fuel
    else none

def TradingEnvironment.next_trading_day (env : TradingEnvironment) (test_date : Nat) : Option Nat :=
  next_trading_day_loop env.trading_days env.last_trading_day (normalize_date test_date)
    (env.last_trading_day + one_day - normalize_date test_date)

/-- `next_open_and_close`: open/close of the next trading day, or the
`NoFurtherDataError` whose message reports `last_trading_day`. -/
def TradingEnvironment.next_open_and_close (env : TradingEnvironment) (start_date : Nat) :
    Except Nat (Nat × Nat) :=
  match env.next_trading_day start_date with
  | none => .error env.last_trading_day
  | some d => .ok (env.get_open_and_close d)

/-- `trading_day_distance`: two independent leftmost-insertion searches,
`none` if either lands past the end of the calendar. -/
def TradingEnvironment.trading_day_distance (env : TradingEnvironment)
    (first_date second_date : Nat) : Option Int :=
  if bisect_left env.trading_days (normalize_date first_date) = env.trading_days.length then
    none
  else if bisect_left env.trading_days (normalize_date second_date) = env.trading_days.length then
    none
  else
    some ((bisect_left env.trading_days (normalize_date second_date) : Int) -
          (bisect_left env.trading_days (normalize_date first_date) : Int))

/-- `get_index`: the position of the normalized date if it is a trading
day, otherwise the insertion point minus one (position of the preceding
trading day, `-1` before all history). -/
def TradingEnvironment.get_index (env : TradingEnvironment) (dt : Nat) : Int :=
  if normalize_date dt ∈ env.trading_days then
    (bisect_left env.trading_days (normalize_date dt) : Int)
  else
    (bisect_left env.trading_days (normalize_date dt) : Int) - 1

/-- The mutable state touched by the context-manager protocol: the
module-level `environment` global together with the entered instance's
`prev_environment` slot. -/
structure ScopedState where
  environment : Option TradingEnvironment
  prev_environment : Option TradingEnvironment

/-- `TradingEnvironment.__enter__`: save the current global in
`self.prev_environment`, install `self`, and return `self` for the
`with ... as` binding. -/
def TradingEnvironment.enter (self : TradingEnvironment) (s : ScopedState) :
    ScopedState × TradingEnvironment :=
  ({ environment := some self, prev_environment := s.environment }, self)

/-- `TradingEnvironment.__exit__`: put the saved previous environment
back into the global and return `False`, i.e. propagate any pending
exception (`_exc` is the exception information, which the source
ignores). -/
def TradingEnvironment.scope_exit (_exc : Option String) (s : ScopedState) :
    ScopedState × Bool :=
  ({ environment := s.prev_environment, prev_environment := s.prev_environment }, false)

/-- The external calendar provider (`USEquitiesTradingCalendar`), out of
scope per the spec: the full trading-day list and per-day open/close
minute offsets; `TradingEnvironment.__init__` restricts it to a
`[start_date, end_date]` window. -/
structure TradingCalendar where
  trading_days : List Nat
  open_minute : Nat → Nat
  close_minute : Nat → Nat

/-- `TradingEnvironment(start_date=.., end_date=..)`: the calendar
provider's trading days restricted to the requested window, with the
open/close table passed through. -/
def mkTradingEnvironment (cal : TradingCalendar) (start_date end_date : Nat) :
    TradingEnvironment :=
  { trading_days := cal.trading_days.filter (fun d => decide (start_date ≤ d ∧ d ≤ end_date)),
    open_minute := cal.open_minute,
    close_minute := cal.close_minute }

/-- The module-level `environment` global (initially `None`). -/
structure GlobalContext where
  environment : Option TradingEnvironment

/-- The body of `calculate_first_open`'s
`while not is_trading_day(first_open)` loop, stepping forward one
calendar day at a time.  Returns the found day together with the number
of iterations the loop performed; `none` when the fuel bound is hit
(the source loop is unbounded). -/
def snap_forward_loop (env : TradingEnvironment) (first_open : Nat) :
    Nat → Option (Nat × Nat)
  | 0 => none
  | fuel + 1 =>
    if env.is_trading_day first_open then some (first_open, 0)
    else
      match snap_forward_loop env (first_open + one_day) fuel with
      | none => none
      | some (d, n) => some (d, n + 1)

/-- The body of `calculate_last_close`'s loop, stepping backward. -/
def snap_backward_loop (env : TradingEnvironment) (last_close : Nat) :
    Nat → Option (Nat × Nat)
  | 0 => none
  | fuel + 1 =>
    if env.is_trading_day last_close then some (last_close, 0)
    else
      match snap_backward_loop env (last_close - one_day) fuel with
      | none => none
      | some (d, n) => some (d, n + 1)

/-- `SimulationParameters.calculate_first_open`: market open of the
first trading day on or after `period_start`, with the iteration count
of the snapping loop. -/
def calculate_first_open (env : TradingEnvironment) (period_start fuel : Nat) :
    Option (Nat × Nat) :=
  match snap_forward_loop env period_start fuel with
  | none => none
  | some (d, n) => some ((env.get_open_and_close d).1, n)

/-- `SimulationParameters.calculate_last_close`: market close of the
last trading day on or before `period_end`, with the iteration count of
the snapping loop. -/
def calculate_last_close (env : TradingEnvironment) (period_end fuel : Nat) :
    Option (Nat × Nat) :=
  match snap_backward_loop env period_end fuel with
  | none => none
  | some (d, n) => some ((env.get_open_and_close d).2, n)

/-- Clamp one Python slice endpoint to `[0, n]`: negative indices count
from the end. -/
def py_slice_index (n : Nat) (i : Int) : Nat :=
  if i < 0 then (i + n).toNat else min i.toNat n

/-- Python's `l[s:e]` for integer endpoints and step 1. -/
def py_slice (l : List Nat) (s e : Int) : List Nat :=
  (l.take (py_slice_index l.length e)).drop (py_slice_index l.length s)

structure SimulationParameters where
  environment : TradingEnvironment
  period_start : Nat
  period_end : Nat
  first_open : Nat
  last_close : Nat
  trading_days : List Nat

/-- `days_in_period`: the length of the window's trading-day slice. -/
def SimulationParameters.days_in_period (sp : SimulationParameters) : Nat :=
  sp.trading_days.length

def except_ok {ε α : Type} : Except ε α → Bool
  | .ok _ => true
  | .error _ => false

/-- `SimulationParameters.__init__`: evaluates
`TradingEnvironment(start_date=.., end_date=..)` — whose constructor
raises (`trading_days[0]` on an empty restricted calendar) before the
module-level global is assigned, leaving the prior context installed —
then installs the new instance into the global, runs the three asserts
in source order, snaps the boundaries, and takes the inclusive
trading-day slice.  Errors model the `IndexError` on an empty calendar,
the `AssertionError`s, and fuel exhaustion of the unbounded snapping
loops. -/
def simulation_parameters_init (cal : TradingCalendar) (g : GlobalContext)
    (period_start period_end fuel : Nat) :
    GlobalContext × Except String SimulationParameters :=
  let env := mkTradingEnvironment cal period_start period_end
  if env.trading_days.isEmpty then
    (g, .error "empty trading day list")
  else
  let g2 : GlobalContext := { environment := some env }
  if ¬ period_start ≤ period_end then
    (g2, .error "Period start falls after period end.")
  else if ¬ period_start ≤ env.last_trading_day then
    (g2, .error "Period start falls after the last known trading day.")
  else if ¬ env.first_trading_day ≤ period_end then
    (g2, .error "Period end falls before the first known trading day.")
  else
    match calculate_first_open env period_start fuel,
          calculate_last_close env period_end fuel with
    | some (fo, _), some (lc, _) =>
      let start_index := env.get_index fo
      let end_index := env.get_index lc
      (g2, .ok { environment := env,
                 period_start := period_start,
                 period_end := period_end,
                 first_open := fo,
                 last_close := lc,
                 trading_days := py_slice env.trading_days start_index (end_index + 1) })
    | _, _ => (g2, .error "snapping loop fuel exhausted")

/-! ### Helper lemmas about `normalize_date` and `bisect_left` -/

theorem normalize_date_le (t : Nat) : normalize_date t ≤ t := by
  simp only [normalize_date, minutes_per_day]
  omega

theorem normalize_date_of_dvd {d : Nat} (h : minutes_per_day ∣ d) : normalize_date d = d := by
  simp only [normalize_date, minutes_per_day] at *
  omega

theorem normalize_date_add {d m : Nat} (hd : minutes_per_day ∣ d) (hm : m < minutes_per_day) :
    normalize_date (d + m) = d := by
  simp only [normalize_date, minutes_per_day] at *
  omega

theorem normalize_date_add_mul (t k : Nat) :
    normalize_date (t + k * one_day) = normalize_date t + k * one_day := by
  simp only [normalize_date, one_day, minutes_per_day]
  omega

theorem normalize_date_sub_mul {t k : Nat} (h : k * one_day ≤ normalize_date t) :
    normalize_date (t - k * one_day) = normalize_date t - k * one_day := by
  simp only [normalize_date, one_day, minutes_per_day] at *
  omega

theorem dvd_normalize_date (t : Nat) : minutes_per_day ∣ normalize_date t :=
  Dvd.intro _ rfl

theorem sorted_head_le {c x : Nat} {t : List Nat}
    (hs : List.Sorted (· < ·) (c :: t)) (hx : x ∈ c :: t) : c ≤ x := by
  rcases List.mem_cons.mp hx with rfl | hx'
  · exact Nat.le_refl x
  · exact Nat.le_of_lt ((List.sorted_cons.mp hs).1 x hx')

theorem getLastD_mem : ∀ (l : List Nat), l ≠ [] → ∀ d : Nat, l.getLastD d ∈ l := by
  intro l
  induction l with
  | nil => intro h; exact absurd rfl h
  | cons a l ih =>
    intro _ d
    cases l with
    | nil => simp
    | cons b t =>
      have hmem := ih (by simp) a
      simp only [List.getLastD]
      exact List.mem_cons_of_mem _ hmem

theorem le_getLastD {l : List Nat} (hs : List.Sorted (· < ·) l) {x : Nat} (hx : x ∈ l)
    (d : Nat) : x ≤ l.getLastD d := by
  induction l generalizing d with
  | nil => simp at hx
  | cons a l ih =>
    rcases List.sorted_cons.mp hs with ⟨ha, hl⟩
    cases l with
    | nil =>
      rcases List.mem_cons.mp hx with rfl | hx'
      · simp
      · simp at hx'
    | cons b t =>
      have hlast : (b :: t).getLastD a ∈ b :: t := getLastD_mem _ (by simp) a
      rcases List.mem_cons.mp hx with rfl | hx'
      · exact Nat.le_of_lt (ha _ hlast)
      · simpa [List.getLastD] using ih hl hx' a

theorem getLast?_eq_getLastD : ∀ (l : List Nat), l ≠ [] → ∀ d : Nat,
    l.getLast? = some (l.getLastD d) := by
  intro l
  induction l with
  | nil => intro h; exact absurd rfl h
  | cons a l ih =>
    intro _ d
    cases l with
    | nil => rfl
    | cons b t =>
      have := ih (by simp) a
      simpa [List.getLast?_cons_cons, List.getLastD] using this

theorem bisect_left_of_get? {l : List Nat} (hs : List.Sorted (· < ·) l) :
    ∀ {i x : Nat}, l.get? i = some x → bisect_left l x = i := by
  induction l with
  | nil => intro i x h; simp at h
  | cons a l ih =>
    intro i x h
    rcases List.sorted_cons.mp hs with ⟨ha, hl⟩
    cases i with
    | zero =>
      simp only [List.get?] at h
      cases h
      simp [bisect_left]
    | succ n =>
      simp only [List.get?] at h
      have hx : x ∈ l := List.get?_mem h
      have hax : a < x := ha x hx
      simp [bisect_left, hax, ih hl h]

theorem bisect_left_between {l : List Nat} (hs : List.Sorted (· < ·) l) :
    ∀ {i a b x : Nat}, l.get? i = some a → l.get? (i + 1) = some b →
      a < x → x < b → bisect_left l x = i + 1 := by
  induction l with
  | nil => intro i a b x ha; simp at ha
  | cons c l ih =>
    intro i a b x ha hb h1 h2
    rcases List.sorted_cons.mp hs with ⟨hc, hl⟩
    cases i with
    | zero =>
      simp only [List.get?] at ha hb
      cases ha
      cases l with
      | nil => simp at hb
      | cons b' t =>
        simp only [List.get?] at hb
        cases hb
        have : ¬ b < x := by omega
        simp [bisect_left, h1, this]
    | succ n =>
      simp only [List.get?] at ha hb
      have hmem : a ∈ l := List.get?_mem ha
      have hcx : c < x := Nat.lt_of_le_of_lt (Nat.le_of_lt (hc a hmem)) h1
      simp [bisect_left, hcx, ih hl ha hb h1 h2]

theorem not_mem_between {l : List Nat} (hs : List.Sorted (· < ·) l) :
    ∀ {i a b x : Nat}, l.get? i = some a → l.get? (i + 1) = some b →
      a < x → x < b → x ∉ l := by
  induction l with
  | nil => intro i a b x ha; simp at ha
  | cons c l ih =>
    intro i a b x ha hb h1 h2 hmem
    rcases List.sorted_cons.mp hs with ⟨hc, hl⟩
    cases i with
    | zero =>
      simp only [List.get?] at ha hb
      cases ha
      rcases List.mem_cons.mp hmem with rfl | hmem'
      · omega
      · cases l with
        | nil => simp at hb
        | cons b' t =>
          simp only [List.get?] at hb
          cases hb
          have := sorted_head_le hl hmem'
          omega
    | succ n =>
      simp only [List.get?] at ha hb
      rcases List.mem_cons.mp hmem with rfl | hmem'
      · have hmema : a ∈ l := List.get?_mem ha
        have := hc a hmema
        omega
      · exact ih hl ha hb h1 h2 hmem'

theorem bisect_left_lt_length {l : List Nat} {x d : Nat} (hd : d ∈ l) (hxd : x ≤ d) :
    bisect_left l x < l.length := by
  induction l with
  | nil => simp at hd
  | cons a l ih =>
    by_cases hax : a < x
    · rcases List.mem_cons.mp hd with rfl | hd'
      · omega
      · simp only [bisect_left, if_pos hax, List.length_cons]
        exact Nat.succ_lt_succ (ih hd')
    · simp [bisect_left, hax]

theorem bisect_left_mono {x y : Nat} (hxy : x ≤ y) :
    ∀ l : List Nat, bisect_left l x ≤ bisect_left l y := by
  intro l
  induction l with
  | nil => simp [bisect_left]
  | cons a l ih =>
    by_cases hax : a < x
    · have hay : a < y := Nat.lt_of_lt_of_le hax hxy
      simp only [bisect_left, if_pos hax, if_pos hay]
      omega
    · simp [bisect_left, hax]

/-! ### Claim theorems -/

/-- C5: scoped context override restores state on every exit path:
after `__enter__` the process-wide active context is the new instance;
after `__exit__` — run with or without a pending exception — the active
context is the one that was active before entry, and the `False` return
value propagates any exception. -/
theorem scoped_override_restores (self : TradingEnvironment) (s : ScopedState)
    (e : Option String) :
    (self.enter s).1.environment = some self ∧
    (TradingEnvironment.scope_exit e (self.enter s).1).1.environment = s.environment ∧
    (TradingEnvironment.scope_exit e (self.enter s).1).2 = false :=
  ⟨rfl, rfl, rfl⟩

/-- C9 (amended): `SimulationParameters.__init__` replaces the
process-wide calendar context with a freshly built `TradingEnvironment`
for `(period_start, period_end)` whenever that environment's
construction succeeds (restricted calendar nonempty) — whatever was
installed before, and whether or not validation then succeeds, the
post-state holds the new instance and the prior one is never restored;
only when the environment constructor itself fails (empty restricted
calendar, before the assignment runs) is the prior context kept. -/
theorem sim_params_replaces_global (cal : TradingCalendar) (g : GlobalContext)
    (period_start period_end fuel : Nat)
    (h : (mkTradingEnvironment cal period_start period_end).trading_days ≠ []) :
    (simulation_parameters_init cal g period_start period_end fuel).1 =
      { environment := some (mkTradingEnvironment cal period_start period_end) } := by
  simp only [simulation_parameters_init]
  rw [if_neg (by simpa [List.isEmpty_iff] using h)]
  repeat' split
  all_goals rfl

/-- C10: for a date normalizing strictly before `first_trading_day`,
`get_index` returns `-1`, which is the position of no trading day;
`normalize_date d ≥ first_trading_day` is needed for a valid position. -/
theorem get_index_before_history (env : TradingEnvironment)
    (hs : List.Sorted (· < ·) env.trading_days) (t : Nat)
    (h : normalize_date t < env.first_trading_day) :
    env.get_index t = -1 ∧ ∀ i : Nat, env.get_index t ≠ (i : Int) := by
  rcases hl : env.trading_days with _ | ⟨c, rest⟩
  · exfalso
    rw [TradingEnvironment.first_trading_day, hl] at h
    simp at h
  · rw [TradingEnvironment.first_trading_day, hl] at h
    simp only [List.headD] at h
    have hs' : List.Sorted (· < ·) (c :: rest) := hl ▸ hs
    have hnmem : normalize_date t ∉ env.trading_days := by
      rw [hl]
      intro hmem
      exact absurd (sorted_head_le hs' hmem) (by omega)
    have hbl : bisect_left env.trading_days (normalize_date t) = 0 := by
      rw [hl]
      simp [bisect_left, Nat.not_lt.mpr (Nat.le_of_lt h)]
    constructor
    · rw [TradingEnvironment.get_index, if_neg hnmem, hbl]
      rfl
    · intro i
      rw [TradingEnvironment.get_index, if_neg hnmem, hbl]
      omega

/-- C3: `get_index` returns the exact position of a trading day, and
for a non-trading day strictly between two consecutive trading days it
returns the position of the preceding one (insertion point minus 1). -/
theorem get_index_positions (env : TradingEnvironment)
    (hs : List.Sorted (· < ·) env.trading_days) (t : Nat) :
    (∀ i : Nat, env.trading_days.get? i = some (normalize_date t) →
       env.get_index t = (i : Int)) ∧
    (∀ i a b : Nat, env.trading_days.get? i = some a →
       env.trading_days.get? (i + 1) = some b →
       a < normalize_date t → normalize_date t < b →
       env.get_index t = (i : Int)) := by
  constructor
  · intro i hi
    have hmem : normalize_date t ∈ env.trading_days := List.get?_mem hi
    rw [TradingEnvironment.get_index, if_pos hmem, bisect_left_of_get? hs hi]
  · intro i a b ha hb h1 h2
    have hnmem : normalize_date t ∉ env.trading_days := not_mem_between hs ha hb h1 h2
    rw [TradingEnvironment.get_index, if_neg hnmem, bisect_left_between hs ha hb h1 h2]
    push_cast
    omega

/-- C1 counterexample: with trading days `{0, 2880}` (days 0 and 2),
`a = 0` (a trading day) and `b = 1440` (day 1, not a trading day), both
normalizing at or before the last trading day,
`trading_day_distance a b = some 1` but
`get_index b - get_index a = 0`. -/
def envC1 : TradingEnvironment :=
  { trading_days := [0, 2880], open_minute := fun _ => 570, close_minute := fun _ => 960 }

theorem distance_index_disagree :
    normalize_date 0 ≤ envC1.last_trading_day ∧
    normalize_date 1440 ≤ envC1.last_trading_day ∧
    envC1.trading_day_distance 0 1440 ≠
      some (envC1.get_index 1440 - envC1.get_index 0) := by
  refine ⟨by decide, by decide, ?_⟩
  decide

/-- C1 (amended): for dates normalizing at or before the last trading
day, `trading_day_distance a b = get_index b - get_index a` holds
whenever the two normalized dates agree on trading-day membership (in
particular whenever both are trading days); when exactly one endpoint is
a non-trading day, `get_index`'s preceding-day convention shifts that
endpoint and the two lookups disagree by one. -/
theorem get_index_distance_consistent (env : TradingEnvironment) (a b : Nat)
    (hne : env.trading_days ≠ [])
    (ha : normalize_date a ≤ env.last_trading_day)
    (hb : normalize_date b ≤ env.last_trading_day)
    (hmem : (normalize_date a ∈ env.trading_days) ↔ (normalize_date b ∈ env.trading_days)) :
    env.trading_day_distance a b = some (env.get_index b - env.get_index a) := by
  have hlast : env.trading_days.getLastD 0 ∈ env.trading_days := getLastD_mem _ hne 0
  have hi : bisect_left env.trading_days (normalize_date a) < env.trading_days.length :=
    bisect_left_lt_length hlast ha
  have hj : bisect_left env.trading_days (normalize_date b) < env.trading_days.length :=
    bisect_left_lt_length hlast hb
  rw [TradingEnvironment.trading_day_distance, if_neg (Nat.ne_of_lt hi),
    if_neg (Nat.ne_of_lt hj)]
  by_cases hmema : normalize_date a ∈ env.trading_days
  · have hmemb : normalize_date b ∈ env.trading_days := hmem.mp hmema
    rw [TradingEnvironment.get_index, TradingEnvironment.get_index,
      if_pos hmema, if_pos hmemb]
  · have hmemb : normalize_date b ∉ env.trading_days := fun h => hmema (hmem.mpr h)
    rw [TradingEnvironment.get_index, TradingEnvironment.get_index,
      if_neg hmema, if_neg hmemb]
    congr 1
    ring

theorem get_index_distance_consistent_witness :
    envC1.trading_day_distance 0 2880 = some (envC1.get_index 2880 - envC1.get_index 0) :=
  get_index_distance_consistent envC1 0 2880 (by decide) (by decide)
    (by decide) (by decide)

theorem get_index_positions_witness :
    envC1.get_index 0 = (0 : Int) ∧ envC1.get_index 1500 = (0 : Int) :=
  ⟨(get_index_positions envC1 (by decide) 0).1 0 (by decide),
   (get_index_positions envC1 (by decide) 1500).2 0 0 2880 (by decide) (by decide)
     (by decide) (by decide)⟩

def envC10 : TradingEnvironment :=
  { trading_days := [1440], open_minute := fun _ => 570, close_minute := fun _ => 960 }

theorem get_index_before_history_witness : envC10.get_index 0 = -1 :=
  (get_index_before_history envC10 (by decide) 0 (by decide)).1

/-! ### Lemmas about the `next_trading_day` loop -/

theorem next_loop_some {days : List Nat} {last : Nat} :
    ∀ {fuel dt d : Nat}, next_trading_day_loop days last dt fuel = some d →
      d ∈ days ∧ dt < d := by
  intro fuel
  induction fuel with
  | zero =>
    intro dt d h
    simp [next_trading_day_loop] at h
  | succ n ih =>
    intro dt d h
    simp only [next_trading_day_loop] at h
    split at h
    · split at h
      · cases h
        refine ⟨by assumption, ?_⟩
        simp only [one_day, minutes_per_day]
        omega
      · have := ih h
        refine ⟨this.1, ?_⟩
        have := this.2
        simp only [one_day, minutes_per_day] at this
        omega
    · cases h

theorem next_loop_none_iff {days : List Nat} {last : Nat}
    (hle : ∀ d ∈ days, d ≤ last) (hdiv : ∀ d ∈ days, minutes_per_day ∣ d) :
    ∀ {fuel dt : Nat}, minutes_per_day ∣ dt → last + one_day - dt ≤ fuel →
      (next_trading_day_loop days last dt fuel = none ↔ ∀ d ∈ days, d ≤ dt) := by
  intro fuel
  induction fuel with
  | zero =>
    intro dt _ hfuel
    have hdt : last < dt := by
      simp only [one_day, minutes_per_day] at hfuel
      omega
    simp only [next_trading_day_loop, true_iff]
    intro d hd
    exact Nat.le_of_lt (Nat.lt_of_le_of_lt (hle d hd) hdt)
  | succ n ih =>
    intro dt hdvd hfuel
    simp only [next_trading_day_loop]
    split
    · split
      · constructor
        · intro h
          cases h
        · intro h
          have := h _ (by assumption)
          exfalso
          simp only [one_day, minutes_per_day] at this
          omega
      · have hdvd2 : minutes_per_day ∣ dt + one_day := by
          simp only [one_day, minutes_per_day] at *
          omega
        have hfuel2 : last + one_day - (dt + one_day) ≤ n := by
          simp only [one_day, minutes_per_day] at *
          omega
        rw [ih hdvd2 hfuel2]
        constructor
        · intro h d hd
          have hd2 := h d hd
          have hmem : dt + one_day ∉ days := by assumption
          have hdd : minutes_per_day ∣ d := hdiv d hd
          have hne : d ≠ dt + one_day := fun he => hmem (he ▸ hd)
          simp only [one_day, minutes_per_day] at *
          omega
        · intro h d hd
          have := h d hd
          simp only [one_day, minutes_per_day] at *
          omega
    · simp only [true_iff]
      intro d hd
      have := hle d hd
      omega

/-- C4: `next_trading_day` at `last_trading_day` returns `none`;
`next_open_and_close` there fails with the no-further-data error whose
diagnostic carries `last_trading_day`; and in general
`next_trading_day` returns `none` exactly when no trading day lies
strictly after the normalized input. -/
theorem next_trading_day_exhaustion (env : TradingEnvironment)
    (hs : List.Sorted (· < ·) env.trading_days)
    (hne : env.trading_days ≠ [])
    (hdiv : ∀ d ∈ env.trading_days, minutes_per_day ∣ d)
    (t : Nat) :
    env.next_trading_day env.last_trading_day = none ∧
    env.next_open_and_close env.last_trading_day = .error env.last_trading_day ∧
    (env.next_trading_day t = none ↔ ∀ d ∈ env.trading_days, d ≤ normalize_date t) := by
  have hle : ∀ d ∈ env.trading_days, d ≤ env.last_trading_day := by
    intro d hd
    exact le_getLastD hs hd 0
  have hiff : ∀ u : Nat, (env.next_trading_day u = none ↔
      ∀ d ∈ env.trading_days, d ≤ normalize_date u) := by
    intro u
    exact next_loop_none_iff hle hdiv (dvd_normalize_date u) (Nat.le_refl _)
  have hlastmem : env.last_trading_day ∈ env.trading_days := getLastD_mem _ hne 0
  have hnorm : normalize_date env.last_trading_day = env.last_trading_day :=
    normalize_date_of_dvd (hdiv _ hlastmem)
  have hnone : env.next_trading_day env.last_trading_day = none := by
    rw [hiff env.last_trading_day, hnorm]
    exact hle
  refine ⟨hnone, ?_, hiff t⟩
  rw [TradingEnvironment.next_open_and_close, hnone]

theorem next_trading_day_exhaustion_witness :
    envC1.next_trading_day 2880 = none ∧
    envC1.next_open_and_close 2880 = .error 2880 :=
  ⟨(next_trading_day_exhaustion envC1 (by decide) (by decide) (by decide) 2880).1,
   (next_trading_day_exhaustion envC1 (by decide) (by decide) (by decide) 2880).2.1⟩

/-- C8: whenever `next_trading_day` returns a day it is a trading day
strictly later than the normalized input — the input day itself is never
returned, even when it is a trading day — while the boundary-snapping
loop of `calculate_first_open` returns a trading-day input unchanged
after zero iterations. -/
theorem next_trading_day_strictly_advances (env : TradingEnvironment) (t : Nat) :
    (∀ d : Nat, env.next_trading_day t = some d →
       normalize_date t < d ∧ d ∈ env.trading_days) ∧
    (env.is_trading_day t = true → snap_forward_loop env t 1 = some (t, 0)) := by
  constructor
  · intro d h
    have := next_loop_some h
    exact ⟨this.2, this.1⟩
  · intro h
    simp [snap_forward_loop, h]

theorem next_trading_day_strictly_advances_witness :
    (normalize_date 0 < 2880 ∧ 2880 ∈ envC1.trading_days) ∧
    snap_forward_loop envC1 0 1 = some (0, 0) :=
  ⟨(next_trading_day_strictly_advances envC1 0).1 2880 (by decide),
   (next_trading_day_strictly_advances envC1 0).2 (by decide)⟩

/-- C6: when `period_start` and `period_end` are both trading days, the
snapping loops of `calculate_first_open` / `calculate_last_close` run
zero iterations and return the market open of `period_start`'s own day
and the market close of `period_end`'s own day. -/
theorem snap_zero_iterations (env : TradingEnvironment)
    (period_start period_end f1 f2 : Nat)
    (h1 : env.is_trading_day period_start = true)
    (h2 : env.is_trading_day period_end = true) :
    calculate_first_open env period_start (f1 + 1) =
      some ((env.get_open_and_close period_start).1, 0) ∧
    calculate_last_close env period_end (f2 + 1) =
      some ((env.get_open_and_close period_end).2, 0) := by
  constructor
  · simp [calculate_first_open, snap_forward_loop, h1]
  · simp [calculate_last_close, snap_backward_loop, h2]

theorem snap_zero_iterations_witness :
    calculate_first_open envC1 0 1 = some ((envC1.get_open_and_close 0).1, 0) ∧
    calculate_last_close envC1 2880 1 = some ((envC1.get_open_and_close 2880).2, 0) :=
  snap_zero_iterations envC1 0 2880 0 0 (by decide) (by decide)

/-! ### Claims about SimulationParameters construction -/

def calC2 : TradingCalendar :=
  { trading_days := [1440, 2880], open_minute := fun _ => 570, close_minute := fun _ => 960 }

/-- C2 counterexample: with provider trading days `{1440, 2880}` (days 1
and 2), requesting the period `[0, 2880]` puts `period_start = 0`
strictly before the first trading day `1440` of the bound calendar, yet
construction succeeds — only a period wholly outside history fails. -/
theorem start_before_history_succeeds :
    0 < (mkTradingEnvironment calC2 0 2880).first_trading_day ∧
    except_ok (simulation_parameters_init calC2 { environment := none } 0 2880 4).2 = true := by
  constructor
  · decide
  · decide

/-- C2 (amended): construction fails when the requested period lies
wholly before known history — `period_end` before the provider's first
trading day leaves the restricted calendar empty, so construction fails
(the empty-calendar configuration error) — while a `period_start`
before the first trading day with `period_end` at or after it
constructs successfully. -/
theorem period_before_history_fails (cal : TradingCalendar) (g : GlobalContext)
    (period_start period_end fuel : Nat)
    (hs : List.Sorted (· < ·) cal.trading_days)
    (h : period_end < cal.trading_days.headD 0) :
    except_ok (simulation_parameters_init cal g period_start period_end fuel).2 = false := by
  have hfilt : (mkTradingEnvironment cal period_start period_end).trading_days = [] := by
    simp only [mkTradingEnvironment]
    rw [List.filter_eq_nil_iff]
    intro d hd
    have hhead : cal.trading_days.headD 0 ≤ d := by
      rcases hl : cal.trading_days with _ | ⟨c, rest⟩
      · rw [hl] at hd
        simp at hd
      · rw [hl] at hd hs
        exact sorted_head_le hs hd
    simp only [decide_eq_true_eq, not_and]
    intro _
    omega
  simp only [simulation_parameters_init, hfilt]
  simp [except_ok]

theorem period_before_history_fails_witness :
    except_ok (simulation_parameters_init calC2 { environment := none } 0 0 3).2 = false :=
  period_before_history_fails calC2 { environment := none } 0 0 3 (by decide) (by decide)

/-- C9 counterexample: with provider trading days `{1440, 2880}` and
the requested period `[0, 0]`, the restricted calendar is empty, the
`TradingEnvironment` constructor raises before the global assignment
runs, and the prior context (here `none`) stays installed — so
construction does not unconditionally replace the process-wide
context. -/
theorem sim_params_global_kept_on_empty :
    (simulation_parameters_init calC2 { environment := none } 0 0 3).1 =
      { environment := none } ∧
    (simulation_parameters_init calC2 { environment := none } 0 0 3).1 ≠
      { environment := some (mkTradingEnvironment calC2 0 0) } := by
  refine ⟨rfl, ?_⟩
  intro h
  have h2 : (none : Option TradingEnvironment) =
      some (mkTradingEnvironment calC2 0 0) := congrArg GlobalContext.environment h
  exact Option.noConfusion h2

theorem sim_params_replaces_global_witness :
    (simulation_parameters_init calC2 { environment := none } 0 2880 4).1 =
      { environment := some (mkTradingEnvironment calC2 0 2880) } :=
  sim_params_replaces_global calC2 { environment := none } 0 2880 4 (by decide)

/-! ### Characterizing the boundary-snapping loops -/

theorem snap_forward_spec {env : TradingEnvironment} :
    ∀ {fuel t d n : Nat}, snap_forward_loop env t fuel = some (d, n) →
      d = t + n * one_day ∧ env.is_trading_day d = true ∧
      ∀ k, k < n → env.is_trading_day (t + k * one_day) = false := by
  intro fuel
  induction fuel with
  | zero =>
    intro t d n h
    simp [snap_forward_loop] at h
  | succ m ih =>
    intro t d n h
    simp only [snap_forward_loop] at h
    by_cases htr : env.is_trading_day t = true
    · rw [if_pos htr] at h
      cases h
      refine ⟨by simp, htr, ?_⟩
      intro k hk
      omega
    · rw [if_neg htr] at h
      rcases heq : snap_forward_loop env (t + one_day) m with _ | ⟨d', n'⟩
      · rw [heq] at h
        cases h
      · rw [heq] at h
        cases h
        obtain ⟨hd', htr', hnone'⟩ := ih heq
        refine ⟨?_, htr', ?_⟩
        · rw [hd']
          ring
        · intro k hk
          cases k with
          | zero =>
            simp only [Nat.zero_mul, Nat.add_zero]
            simp only [Bool.not_eq_true] at htr
            exact htr
          | succ k' =>
            have harith : t + (k' + 1) * one_day = t + one_day + k' * one_day := by ring
            rw [harith]
            exact hnone' k' (by omega)

theorem snap_backward_spec {env : TradingEnvironment} :
    ∀ {fuel t d n : Nat}, snap_backward_loop env t fuel = some (d, n) →
      d = t - n * one_day ∧ env.is_trading_day d = true ∧
      ∀ k, k < n → env.is_trading_day (t - k * one_day) = false := by
  intro fuel
  induction fuel with
  | zero =>
    intro t d n h
    simp [snap_backward_loop] at h
  | succ m ih =>
    intro t d n h
    simp only [snap_backward_loop] at h
    by_cases htr : env.is_trading_day t = true
    · rw [if_pos htr] at h
      cases h
      refine ⟨by simp, htr, ?_⟩
      intro k hk
      omega
    · rw [if_neg htr] at h
      rcases heq : snap_backward_loop env (t - one_day) m with _ | ⟨d', n'⟩
      · rw [heq] at h
        cases h
      · rw [heq] at h
        cases h
        obtain ⟨hd', htr', hnone'⟩ := ih heq
        refine ⟨?_, htr', ?_⟩
        · rw [hd']
          simp only [one_day, minutes_per_day]
          omega
        · intro k hk
          cases k with
          | zero =>
            simp only [Nat.zero_mul, Nat.sub_zero]
            simp only [Bool.not_eq_true] at htr
            exact htr
          | succ k' =>
            have harith : t - (k' + 1) * one_day = t - one_day - k' * one_day := by
              simp only [one_day, minutes_per_day]
              omega
            rw [harith]
            exact hnone' k' (by omega)

theorem get?_length_sub_one : ∀ (l : List Nat), l ≠ [] → ∀ d : Nat,
    l.get? (l.length - 1) = some (l.getLastD d) := by
  intro l
  induction l with
  | nil => intro h; exact absurd rfl h
  | cons a t ih =>
    intro _ d
    cases t with
    | nil => rfl
    | cons b t' =>
      have hlen : (a :: b :: t').length - 1 = (b :: t').length - 1 + 1 := by
        simp
      rw [hlen, List.get?_cons_succ]
      exact ih (by simp) a

theorem py_slice_index_natCast (n i : Nat) : py_slice_index n (i : Int) = min i n := by
  simp [py_slice_index]

/-- The heart of the C7 proof: in the successful branch of
`simulation_parameters_init`, the snapped boundary days are the least
and greatest trading days of the restricted calendar, so the inclusive
slice is the whole calendar. -/
theorem sim_params_invariants_main (cal : TradingCalendar)
    (period_start period_end fuel : Nat)
    (hs : List.Sorted (· < ·) cal.trading_days)
    (hdiv : ∀ d ∈ cal.trading_days, minutes_per_day ∣ d)
    (hoc : ∀ d ∈ cal.trading_days,
      cal.open_minute d < minutes_per_day ∧ cal.close_minute d < minutes_per_day)
    (sp : SimulationParameters) (fo n1 lc n2 : Nat)
    (heqf : calculate_first_open (mkTradingEnvironment cal period_start period_end)
      period_start fuel = some (fo, n1))
    (heqc : calculate_last_close (mkTradingEnvironment cal period_start period_end)
      period_end fuel = some (lc, n2))
    (hok : { environment := mkTradingEnvironment cal period_start period_end,
             period_start := period_start,
             period_end := period_end,
             first_open := fo,
             last_close := lc,
             trading_days := py_slice
               (mkTradingEnvironment cal period_start period_end).trading_days
               ((mkTradingEnvironment cal period_start period_end).get_index fo)
               ((mkTradingEnvironment cal period_start period_end).get_index lc + 1) :
             SimulationParameters } = sp) :
    sp.trading_days.head? = some (normalize_date sp.first_open) ∧
    sp.trading_days.getLast? = some (normalize_date sp.last_close) ∧
    sp.days_in_period = sp.trading_days.length := by
  subst hok
  set env := mkTradingEnvironment cal period_start period_end with henv
  -- facts about the restricted calendar
  have hsub : ∀ d ∈ env.trading_days,
      d ∈ cal.trading_days ∧ period_start ≤ d ∧ d ≤ period_end := by
    intro d hd
    rw [henv] at hd
    simp only [mkTradingEnvironment, List.mem_filter, decide_eq_true_eq] at hd
    exact ⟨hd.1, hd.2.1, hd.2.2⟩
  have hs' : List.Sorted (· < ·) env.trading_days := by
    rw [henv]
    exact List.Pairwise.filter _ hs
  have hdiv' : ∀ d ∈ env.trading_days, minutes_per_day ∣ d :=
    fun d hd => hdiv d (hsub d hd).1
  -- invert calculate_first_open
  simp only [calculate_first_open] at heqf
  rcases heqsf : snap_forward_loop env period_start fuel with _ | ⟨d1, m1⟩
  · rw [heqsf] at heqf
    cases heqf
  rw [heqsf] at heqf
  simp only [Option.some.injEq, Prod.mk.injEq] at heqf
  obtain ⟨hfo, hn1⟩ := heqf
  obtain ⟨hd1, htr1, hnot1⟩ := snap_forward_spec heqsf
  have hdr_mem : normalize_date d1 ∈ env.trading_days := by
    simpa [TradingEnvironment.is_trading_day] using htr1
  set dr := normalize_date d1 with hdr
  -- invert calculate_last_close
  simp only [calculate_last_close] at heqc
  rcases heqsb : snap_backward_loop env period_end fuel with _ | ⟨d2, m2⟩
  · rw [heqsb] at heqc
    cases heqc
  rw [heqsb] at heqc
  simp only [Option.some.injEq, Prod.mk.injEq] at heqc
  obtain ⟨hlc, hn2⟩ := heqc
  obtain ⟨hd2, htr2, hnot2⟩ := snap_backward_spec heqsb
  have hdc_mem : normalize_date d2 ∈ env.trading_days := by
    simpa [TradingEnvironment.is_trading_day] using htr2
  set dc := normalize_date d2 with hdc
  -- the snapped-to start day is the least trading day of the window
  have hmin : ∀ d ∈ env.trading_days, dr ≤ d := by
    intro d hd
    obtain ⟨hdcal, hpsd, hdpe⟩ := hsub d hd
    have hdd : minutes_per_day ∣ d := hdiv d hdcal
    obtain ⟨k, hk⟩ : ∃ k, d = normalize_date period_start + k * one_day := by
      refine ⟨(d - normalize_date period_start) / one_day, ?_⟩
      simp only [normalize_date, one_day, minutes_per_day] at hdd ⊢
      omega
    have htrk : env.is_trading_day (period_start + k * one_day) = true := by
      have hnk : normalize_date (period_start + k * one_day) = d := by
        rw [normalize_date_add_mul]
        exact hk.symm
      rw [TradingEnvironment.is_trading_day, hnk]
      simp [hd]
    have hkm : m1 ≤ k := by
      by_contra hlt
      push_neg at hlt
      rw [hnot1 k hlt] at htrk
      cases htrk
    have hdr_val : dr = normalize_date period_start + m1 * one_day := by
      rw [hdr, hd1, normalize_date_add_mul]
    have hmul : m1 * one_day ≤ k * one_day := Nat.mul_le_mul_right _ hkm
    rw [hdr_val, hk]
    omega
  -- the snapped-to end day is the greatest trading day of the window
  have hmax : ∀ d ∈ env.trading_days, d ≤ dc := by
    intro d hd
    obtain ⟨hdcal, hpsd, hdpe⟩ := hsub d hd
    have hdd : minutes_per_day ∣ d := hdiv d hdcal
    obtain ⟨k, hk1, hk2⟩ : ∃ k, k * one_day ≤ normalize_date period_end ∧
        d = normalize_date period_end - k * one_day := by
      refine ⟨(normalize_date period_end - d) / one_day, ?_, ?_⟩
      · simp only [normalize_date, one_day, minutes_per_day] at hdd ⊢
        omega
      · simp only [normalize_date, one_day, minutes_per_day] at hdd ⊢
        omega
    have htrk : env.is_trading_day (period_end - k * one_day) = true := by
      have hnk : normalize_date (period_end - k * one_day) = d := by
        rw [normalize_date_sub_mul hk1]
        exact hk2.symm
      rw [TradingEnvironment.is_trading_day, hnk]
      simp [hd]
    have hkm : m2 ≤ k := by
      by_contra hlt
      push_neg at hlt
      rw [hnot2 k hlt] at htrk
      cases htrk
    have hmul : m2 * one_day ≤ k * one_day := Nat.mul_le_mul_right _ hkm
    have hdc_val : dc = normalize_date period_end - m2 * one_day := by
      rw [hdc, hd2, normalize_date_sub_mul (Nat.le_trans hmul hk1)]
    rw [hdc_val, hk2]
    omega
  have hne : env.trading_days ≠ [] := List.ne_nil_of_mem hdr_mem
  -- dr is the head, dc the last element
  have hheads : env.trading_days.head? = some dr ∧ env.trading_days.get? 0 = some dr := by
    rcases hl : env.trading_days with _ | ⟨c, rest⟩
    · rw [hl] at hdr_mem
      simp at hdr_mem
    · rw [hl] at hdr_mem hmin hs'
      have h1 : dr ≤ c := hmin c (List.mem_cons_self c rest)
      have h2 : c ≤ dr := sorted_head_le hs' hdr_mem
      have hcd : c = dr := Nat.le_antisymm h2 h1
      rw [hcd]
      exact ⟨rfl, rfl⟩
  have hlast_eq : env.trading_days.getLastD 0 = dc :=
    Nat.le_antisymm (hmax _ (getLastD_mem env.trading_days hne 0))
      (le_getLastD hs' hdc_mem 0)
  have hgetlast : env.trading_days.getLast? = some dc := by
    rw [getLast?_eq_getLastD env.trading_days hne 0, hlast_eq]
  -- normalized snapped timestamps
  have hocd : env.open_minute dr < minutes_per_day := by
    rw [henv]
    exact (hoc dr (hsub dr hdr_mem).1).1
  have hccd : env.close_minute dc < minutes_per_day := by
    rw [henv]
    exact (hoc dc (hsub dc hdc_mem).1).2
  have hfo_norm : normalize_date fo = dr := by
    rw [← hfo]
    simp only [TradingEnvironment.get_open_and_close]
    exact normalize_date_add (dvd_normalize_date d1) hocd
  have hlc_norm : normalize_date lc = dc := by
    rw [← hlc]
    simp only [TradingEnvironment.get_open_and_close]
    exact normalize_date_add (dvd_normalize_date d2) hccd
  -- index values of the snapped timestamps
  have hbl0 : bisect_left env.trading_days dr = 0 :=
    bisect_left_of_get? hs' hheads.2
  have hblL : bisect_left env.trading_days dc = env.trading_days.length - 1 := by
    have := get?_length_sub_one env.trading_days hne 0
    rw [hlast_eq] at this
    exact bisect_left_of_get? hs' this
  have hgidx_fo : env.get_index fo = 0 := by
    rw [TradingEnvironment.get_index, hfo_norm, if_pos hdr_mem, hbl0]
    rfl
  have hgidx_lc : env.get_index lc = ((env.trading_days.length - 1 : Nat) : Int) := by
    rw [TradingEnvironment.get_index, hlc_norm, if_pos hdc_mem, hblL]
  have hlen_pos : 1 ≤ env.trading_days.length := List.length_pos.mpr hne
  -- the inclusive slice is the whole restricted calendar
  have hslice : py_slice env.trading_days (env.get_index fo) (env.get_index lc + 1) =
      env.trading_days := by
    have he : env.get_index lc + 1 = (env.trading_days.length : Int) := by
      rw [hgidx_lc]
      omega
    have h0 : env.get_index fo = ((0 : Nat) : Int) := by
      rw [hgidx_fo]
      rfl
    rw [he, h0, py_slice, py_slice_index_natCast, py_slice_index_natCast]
    simp
  -- read off the conclusion
  refine ⟨?_, ?_, rfl⟩
  · show (py_slice env.trading_days (env.get_index fo) (env.get_index lc + 1)).head? =
      some (normalize_date fo)
    rw [hslice, hfo_norm]
    exact hheads.1
  · show (py_slice env.trading_days (env.get_index fo) (env.get_index lc + 1)).getLast? =
      some (normalize_date lc)
    rw [hslice, hlc_norm]
    exact hgetlast

/-- C7: every successfully constructed `SimulationParameters` (over a
sorted, normalized provider calendar with intraday open/close offsets)
has the day of `first_open` as the first element of its trading-day
slice, the day of `last_close` as its last element, and
`days_in_period` equal to the slice's length. -/
theorem sim_params_invariants (cal : TradingCalendar) (g : GlobalContext)
    (period_start period_end fuel : Nat)
    (hs : List.Sorted (· < ·) cal.trading_days)
    (hdiv : ∀ d ∈ cal.trading_days, minutes_per_day ∣ d)
    (hoc : ∀ d ∈ cal.trading_days,
      cal.open_minute d < minutes_per_day ∧ cal.close_minute d < minutes_per_day)
    (sp : SimulationParameters)
    (hok : (simulation_parameters_init cal g period_start period_end fuel).2 =
      Except.ok sp) :
    sp.trading_days.head? = some (normalize_date sp.first_open) ∧
    sp.trading_days.getLast? = some (normalize_date sp.last_close) ∧
    sp.days_in_period = sp.trading_days.length := by
  simp only [simulation_parameters_init] at hok
  split at hok
  · simp at hok
  split at hok
  · simp at hok
  split at hok
  · simp at hok
  split at hok
  · simp at hok
  split at hok
  case _ =>
    rename_i fo n1 lc n2 heqf heqc
    simp only [Except.ok.injEq] at hok
    exact sim_params_invariants_main cal period_start period_end fuel hs hdiv hoc
      sp fo n1 lc n2 heqf heqc hok
  case _ =>
    -- catch-all branch of the match: construction failed
    simp at hok

def calC7 : TradingCalendar :=
  { trading_days := [0, 1440], open_minute := fun _ => 570, close_minute := fun _ => 960 }

theorem sim_params_invariants_witness :
    (py_slice [0, 1440] 0 2).head? = some (normalize_date 570) ∧
    (py_slice [0, 1440] 0 2).getLast? = some (normalize_date 2400) ∧
    SimulationParameters.days_in_period
      { environment := mkTradingEnvironment calC7 0 1440,
        period_start := 0, period_end := 1440,
        first_open := 570, last_close := 2400,
        trading_days := py_slice [0, 1440] 0 2 } = (py_slice [0, 1440] 0 2).length :=
  sim_params_invariants calC7 { environment := none } 0 1440 3
    (by decide) (by decide) (by decide) _ rfl

end ZiplineTrading
